import Mathlib

/-!
Verification of the unstable in-memory Raft log buffer of the tiglabs raft
package (cubefs). The implementation file `raft_log_unstable.go` is not part
of the available sources; only its test file
`src/depends/tiglabs/raft/raft_log_unstable_test.go` is. The buffer and its
operations are therefore modelled from the specification (spec.md §3, §4.1,
§4.3), and the test file's concrete cases are used as sanity checks.
-/

namespace RaftUnstable

/-- Modelled from the spec: the kind of a replicated-log entry
(`kind: enum{Normal, ConfigChange}`, spec §3 Entry). -/
inductive EntryKind where
  | Normal
  | ConfigChange
deriving DecidableEq, Repr

/-- Modelled from the spec: an immutable unit of the replicated log,
`{index: uint64, term: uint64, payload: bytes, kind}` (spec §3 Entry).
Indices and terms are modelled as `Nat`; the payload as a byte list.
The Go struct lives in `proto.Entry`, whose definition file is absent. -/
structure Entry where
  index : Nat
  term : Nat
  payload : List Nat
  kind : EntryKind
deriving DecidableEq, Repr

/-- Modelled from the spec: `SnapshotBoundary {index, term, membership}`
(spec §3). The opaque `membership` field is irrelevant to every lookup and
is omitted. Corresponds to `proto.SnapshotMeta` in the test file. -/
structure SnapshotMeta where
  index : Nat
  term : Nat
deriving DecidableEq, Repr

/-- Modelled from the spec: the `UnstableLog` buffer
`{entries, offset, pendingSnapshot}` (spec §3), the Go `unstable` struct
whose implementation file `raft_log_unstable.go` is missing from the
sources. -/
structure UnstableLog where
  entries : List Entry
  offset : Nat
  pendingSnapshot : Option SnapshotMeta
deriving DecidableEq, Repr

/-- Modelled from the spec: `lastIndex()` / Go `maybeLastIndex` (spec §4.1):
the index of the last element of `entries` if non-empty; otherwise
`pendingSnapshot.index` if set; otherwise not-found (zero value). -/
def UnstableLog.maybeLastIndex (u : UnstableLog) : Nat × Bool :=
  match u.entries.getLast? with
  | some e => (e.index, true)
  | none =>
      match u.pendingSnapshot with
      | some s => (s.index, true)
      | none => (0, false)

/-- Modelled from the spec: the entries part of `termAt` (spec §4.1 step 2):
if `index` falls within `[offset, offset+len(entries))`, return
`entries[index-offset].term`; otherwise not-found (zero value). -/
def UnstableLog.termFromEntries (u : UnstableLog) (i : Nat) : Nat × Bool :=
  if u.offset ≤ i ∧ i < u.offset + u.entries.length then
    match u.entries.get? (i - u.offset) with
    | some e => (e.term, true)
    | none => (0, false)
  else (0, false)

/-- Modelled from the spec: `termAt(index)` / Go `maybeTerm` (spec §4.1),
resolution order: pending snapshot boundary first, then the in-memory
entries, otherwise not-found. -/
def UnstableLog.maybeTerm (u : UnstableLog) (i : Nat) : Nat × Bool :=
  match u.pendingSnapshot with
  | some s => if i = s.index then (s.term, true) else u.termFromEntries i
  | none => u.termFromEntries i

/-- Modelled from the spec: `markStable(index, term)` / Go `stableTo`
(spec §4.1): no-op when `entries` is empty, when `index < offset`, or when
`index` is beyond the buffer's range; when `index` is in range and the
stored term at position `index-offset` equals `term`, drop every entry with
index ≤ `index` and set `offset = index + 1`; when the stored term differs,
the acknowledgment is stale and the buffer is left unchanged. -/
def UnstableLog.stableTo (u : UnstableLog) (i t : Nat) : UnstableLog :=
  if u.entries.isEmpty then u
  else if i < u.offset then u
  else if i < u.offset + u.entries.length then
    if (u.entries.get? (i - u.offset)).map Entry.term = some t then
      { u with entries := u.entries.filter (fun e => decide (i < e.index)),
               offset := i + 1 }
    else u
  else u

/-- Modelled from the spec: `append(newEntries)` / Go `truncateAndAppend`
(spec §4.1): no-op on empty input; with `first = newEntries[0].index`,
pure continuation when `first == offset + len(entries)`, full replacement
when `first <= offset`, and truncate-and-append otherwise (retain the
prefix `entries[0 .. first-offset)` and append `newEntries` after it). -/
def UnstableLog.truncateAndAppend (u : UnstableLog) (ents : List Entry) :
    UnstableLog :=
  match ents with
  | [] => u
  | e :: _ =>
      if e.index = u.offset + u.entries.length then
        { u with entries := u.entries ++ ents }
      else if e.index ≤ u.offset then
        { u with entries := ents, offset := e.index }
      else
        { u with entries := u.entries.take (e.index - u.offset) ++ ents }

/-- Modelled from the spec: `restoreSnapshot(boundary)` (spec §4.3):
discard all buffered entries, set `offset = boundary.index + 1` and
`pendingSnapshot = boundary`. -/
def UnstableLog.restoreSnapshot (_u : UnstableLog) (b : SnapshotMeta) :
    UnstableLog :=
  { entries := [], offset := b.index + 1, pendingSnapshot := some b }

/-- `contiguousFromB off l` checks the strict-contiguity invariant of
spec §3: the p-th element of `l` has index `off + p`. -/
def contiguousFromB (off : Nat) : List Entry → Bool
  | [] => true
  | e :: es => decide (e.index = off) && contiguousFromB (off + 1) es

/-- The buffer invariant of spec §3: `entries[p].index == offset + p`
for every position `p`. -/
def UnstableLog.contiguousB (u : UnstableLog) : Bool :=
  contiguousFromB u.offset u.entries

/-- Well-formedness of an input batch on its own (spec §7: contiguous,
strictly increasing indices): the batch is contiguous starting from its
own first index. -/
def selfContiguousB : List Entry → Bool
  | [] => true
  | e :: es => contiguousFromB e.index (e :: es)

/-- The input batch does not open a gap after the buffer (spec §9: a first
index strictly greater than `offset+len(entries)` is a contract
violation): `newEntries[0].index ≤ offset + len(entries)`. -/
def fitsB (u : UnstableLog) : List Entry → Bool
  | [] => true
  | e :: _ => decide (e.index ≤ u.offset + u.entries.length)

/-! ### Helper lemmas about the contiguity invariant -/

theorem contiguousFromB_append (l1 l2 : List Entry) (off : Nat) :
    contiguousFromB off (l1 ++ l2) =
      (contiguousFromB off l1 && contiguousFromB (off + l1.length) l2) := by
  induction l1 generalizing off with
  | nil => simp [contiguousFromB]
  | cons a l ih =>
      simp only [List.cons_append, contiguousFromB, List.append_eq,
        ih (off + 1), List.length_cons, Bool.and_assoc]
      have h : off + 1 + l.length = off + (l.length + 1) := by omega
      rw [h]

theorem contiguousFromB_take (l : List Entry) (off k : Nat)
    (h : contiguousFromB off l = true) :
    contiguousFromB off (l.take k) = true := by
  induction l generalizing off k with
  | nil => simp [contiguousFromB]
  | cons a l ih =>
      cases k with
      | zero => simp [contiguousFromB]
      | succ k =>
          simp only [contiguousFromB, Bool.and_eq_true, decide_eq_true_eq]
            at h
          simp only [List.take_succ_cons, contiguousFromB, Bool.and_eq_true,
            decide_eq_true_eq]
          exact ⟨h.1, ih (off + 1) k h.2⟩

theorem contiguousFromB_drop (l : List Entry) (off k : Nat)
    (h : contiguousFromB off l = true) :
    contiguousFromB (off + k) (l.drop k) = true := by
  induction l generalizing off k with
  | nil => simp [contiguousFromB]
  | cons a l ih =>
      cases k with
      | zero => simpa using h
      | succ k =>
          simp only [contiguousFromB, Bool.and_eq_true, decide_eq_true_eq]
            at h
          have h2 := ih (off + 1) k h.2
          rw [List.drop_succ_cons]
          have h3 : off + (k + 1) = off + 1 + k := by omega
          rw [h3]
          exact h2

theorem contiguousFromB_get (l : List Entry) (off p : Nat) (e : Entry)
    (h : contiguousFromB off l = true) (hg : l.get? p = some e) :
    e.index = off + p := by
  induction l generalizing off p with
  | nil => simp at hg
  | cons a l ih =>
      simp only [contiguousFromB, Bool.and_eq_true, decide_eq_true_eq] at h
      cases p with
      | zero =>
          simp only [List.get?_cons_zero, Option.some.injEq] at hg
          rw [← hg]
          omega
      | succ p =>
          have := ih (off + 1) p h.2 (by simpa using hg)
          omega

theorem contiguousFromB_mem_bound (l : List Entry) (off : Nat)
    (h : contiguousFromB off l = true) :
    ∀ e ∈ l, off ≤ e.index ∧ e.index < off + l.length := by
  induction l generalizing off with
  | nil => simp
  | cons a l ih =>
      simp only [contiguousFromB, Bool.and_eq_true, decide_eq_true_eq] at h
      intro e he
      rcases List.mem_cons.mp he with rfl | he
      · simp only [List.length_cons]; omega
      · have := ih (off + 1) h.2 e he
        simp only [List.length_cons]
        omega

theorem filter_gt_eq_drop (l : List Entry) (off i : Nat)
    (h : contiguousFromB off l = true) :
    l.filter (fun e => decide (i < e.index)) = l.drop (i + 1 - off) := by
  induction l generalizing off with
  | nil => simp
  | cons a l ih =>
      simp only [contiguousFromB, Bool.and_eq_true, decide_eq_true_eq] at h
      obtain ⟨ha, hl⟩ := h
      by_cases hio : i < off
      · have h1 : i + 1 - off = 0 := by omega
        have h2 : i + 1 - (off + 1) = 0 := by omega
        have hfl := ih (off + 1) hl
        rw [h2, List.drop_zero] at hfl
        have hpa : decide (i < a.index) = true := by
          simp only [decide_eq_true_eq]; omega
        rw [h1, List.drop_zero, List.filter_cons, hpa]
        simp [hfl]
      · have h1 : i + 1 - off = (i - off) + 1 := by omega
        have h2 : i + 1 - (off + 1) = i - off := by omega
        have hfl := ih (off + 1) hl
        rw [h2] at hfl
        have hpa : decide (i < a.index) = false := by
          simp only [decide_eq_false_iff_not]; omega
        rw [h1, List.filter_cons, hpa]
        simp only [Bool.false_eq_true, if_false, List.drop_succ_cons]
        exact hfl

/-! ### Helper lemmas about `stableTo` -/

theorem stableTo_of_empty (u : UnstableLog) (i t : Nat)
    (h : u.entries = []) : u.stableTo i t = u := by
  simp [UnstableLog.stableTo, h]

theorem stableTo_of_lt (u : UnstableLog) (i t : Nat)
    (h : i < u.offset) : u.stableTo i t = u := by
  simp only [UnstableLog.stableTo]
  split_ifs <;> first | rfl | omega

theorem stableTo_of_ge (u : UnstableLog) (i t : Nat)
    (h : u.offset + u.entries.length ≤ i) : u.stableTo i t = u := by
  simp only [UnstableLog.stableTo]
  split_ifs <;> first | rfl | omega


theorem stableTo_of_mismatch (u : UnstableLog) (i t : Nat)
    (h : (u.entries.get? (i - u.offset)).map Entry.term ≠ some t) :
    u.stableTo i t = u := by
  simp only [UnstableLog.stableTo]
  split_ifs <;> rfl

theorem stableTo_truncates (u : UnstableLog) (i t : Nat)
    (hlo : u.offset ≤ i) (hhi : i < u.offset + u.entries.length)
    (hmatch : (u.entries.get? (i - u.offset)).map Entry.term = some t) :
    u.stableTo i t =
      { u with entries := u.entries.filter (fun e => decide (i < e.index)),
               offset := i + 1 } := by
  have hne : u.entries.isEmpty = false := by
    cases hc : u.entries with
    | nil => rw [hc] at hhi; simp at hhi; omega
    | cons a l => simp
  simp only [UnstableLog.stableTo, hne, Bool.false_eq_true, if_false]
  rw [if_neg (by omega), if_pos hhi, if_pos hmatch]

theorem stableTo_eq_self_or_offset (u : UnstableLog) (i t : Nat) :
    u.stableTo i t = u ∨ (u.stableTo i t).offset = i + 1 := by
  simp only [UnstableLog.stableTo]
  split_ifs <;> simp

/-! ### Concrete buffers used in witnesses and counterexamples -/

/-- Shorthand for an entry with empty payload, as in the test file. -/
def ent (i t : Nat) : Entry := ⟨i, t, [], .Normal⟩

/-- Buffer of spec §8 scenario 1 and test `TestUnstableStableTo` case 2:
`{entries: [(5,1)], offset: 5}`. -/
def buf51 : UnstableLog := ⟨[ent 5 1], 5, none⟩

/-- Buffer of test `TestUnstableStableTo` case 4 (term-mismatch case):
`{entries: [(6,2)], offset: 6}`. -/
def buf62 : UnstableLog := ⟨[ent 6 2], 6, none⟩

/-- Buffer of spec §8 scenario 3 and test `TestUnstableTruncateAndAppend`
case 5: `{entries: [(5,1),(6,1),(7,1)], offset: 5}`. -/
def buf3 : UnstableLog := ⟨[ent 5 1, ent 6 1, ent 7 1], 5, none⟩

/-- Buffer with a pending snapshot boundary at index 4, as in the
snapshot cases of `TestUnstableStableTo`. -/
def bufSnap : UnstableLog := ⟨[ent 5 1], 5, some ⟨4, 1⟩⟩

/-- The empty buffer of spec §8 scenario 5. -/
def bufEmpty : UnstableLog := ⟨[], 0, none⟩

/-- Buffer holding only a pending snapshot boundary at index 4. -/
def bufSnapOnly : UnstableLog := ⟨[], 5, some ⟨4, 1⟩⟩

/-! ### Helper lemmas about `maybeTerm` and `maybeLastIndex` -/

theorem termFromEntries_in_range (u : UnstableLog) (i : Nat) (e : Entry)
    (hlo : u.offset ≤ i) (hget : u.entries.get? (i - u.offset) = some e) :
    u.termFromEntries i = (e.term, true) := by
  have hlt : i - u.offset < u.entries.length := by
    by_contra hc
    rw [List.get?_eq_none.mpr (by omega)] at hget
    exact Option.noConfusion hget
  simp only [UnstableLog.termFromEntries]
  rw [if_pos ⟨hlo, by omega⟩, hget]

theorem termFromEntries_out_of_range (u : UnstableLog) (i : Nat)
    (h : i < u.offset ∨ u.offset + u.entries.length ≤ i) :
    u.termFromEntries i = (0, false) := by
  simp only [UnstableLog.termFromEntries]
  rw [if_neg (by omega)]

theorem termFromEntries_cases (u : UnstableLog) (i : Nat) :
    (u.termFromEntries i).2 = true ∨ u.termFromEntries i = (0, false) := by
  simp only [UnstableLog.termFromEntries]
  split
  · split
    · exact Or.inl rfl
    · exact Or.inr rfl
  · exact Or.inr rfl

/-- Marking stable at the last entry of a contiguous buffer with that
entry's own term empties the buffer and moves `offset` one past it. -/
theorem stableTo_last_clears (v : UnstableLog) (lastE : Entry)
    (hv : v.contiguousB = true)
    (hlast : v.entries.getLast? = some lastE) :
    (v.stableTo lastE.index lastE.term).entries = [] ∧
    (v.stableTo lastE.index lastE.term).offset = lastE.index + 1 := by
  have hne : v.entries ≠ [] := by
    intro hc; rw [hc] at hlast; exact Option.noConfusion hlast
  have hlen : 0 < v.entries.length := List.length_pos.mpr hne
  have hget : v.entries.get? (v.entries.length - 1) = some lastE := by
    rw [← List.getLast?_eq_get?]; exact hlast
  have hidx : lastE.index = v.offset + (v.entries.length - 1) :=
    contiguousFromB_get v.entries v.offset (v.entries.length - 1) lastE hv
      hget
  have hgi : v.entries.get? (lastE.index - v.offset) = some lastE := by
    have hd : lastE.index - v.offset = v.entries.length - 1 := by omega
    rw [hd]; exact hget
  have hmatch : (v.entries.get? (lastE.index - v.offset)).map Entry.term
      = some lastE.term := by rw [hgi]; rfl
  rw [stableTo_truncates v lastE.index lastE.term (by omega) (by omega)
    hmatch]
  refine ⟨?_, rfl⟩
  show v.entries.filter (fun e => decide (lastE.index < e.index)) = []
  rw [filter_gt_eq_drop v.entries v.offset lastE.index hv]
  have hfull : lastE.index + 1 - v.offset = v.entries.length := by omega
  rw [hfull]
  exact List.drop_length v.entries

/-! ### Claim theorems -/

/-- C1: for every buffer state and every call `markStable(index, term)`
(`stableTo`) where `index` lies within `[offset, offset+len(entries))` but
the term stored at position `index-offset` differs from `term`, the call
leaves the buffer completely unchanged: no entries are dropped, `offset`
is unchanged, and no error is raised. -/
theorem stableTo_term_mismatch_noop (u : UnstableLog) (i t : Nat)
    (hlo : u.offset ≤ i) (hhi : i < u.offset + u.entries.length)
    (hmis : (u.entries.get? (i - u.offset)).map Entry.term ≠ some t) :
    u.stableTo i t = u :=
  stableTo_of_mismatch u i t hmis

theorem stableTo_term_mismatch_noop_witness :
    buf62.stableTo 6 1 = buf62 :=
  stableTo_term_mismatch_noop buf62 6 1 (by decide) (by decide) (by decide)

/-- C3: for every buffer state and every call `markStable(index, term)`
(`stableTo`) with `index` in range and the stored term at position
`index-offset` equal to `term`, afterwards every entry with index ≤ `index`
has been dropped, the entries with larger index are retained unchanged
(the result is exactly the sub-sequence of entries with index above
`index`), and `offset` equals `index + 1`. -/
theorem stableTo_term_match_truncates (u : UnstableLog) (i t : Nat)
    (hlo : u.offset ≤ i) (hhi : i < u.offset + u.entries.length)
    (hmatch : (u.entries.get? (i - u.offset)).map Entry.term = some t) :
    (u.stableTo i t).offset = i + 1 ∧
    (u.stableTo i t).entries
      = u.entries.filter (fun e => decide (i < e.index)) ∧
    (u.stableTo i t).pendingSnapshot = u.pendingSnapshot := by
  rw [stableTo_truncates u i t hlo hhi hmatch]
  exact ⟨rfl, rfl, rfl⟩

theorem stableTo_term_match_truncates_witness :
    (buf51.stableTo 5 1).offset = 5 + 1 ∧
    (buf51.stableTo 5 1).entries
      = buf51.entries.filter (fun e => decide (5 < e.index)) ∧
    (buf51.stableTo 5 1).pendingSnapshot = buf51.pendingSnapshot :=
  stableTo_term_match_truncates buf51 5 1 (by decide) (by decide)
    (by decide)

/-- C9: `markStable` (`stableTo`) leaves the buffer entirely unchanged
(same entries, same offset) when `entries` is empty, when
`index < offset`, or when `index` is at or beyond
`offset + len(entries)`. -/
theorem stableTo_noop_cases (u : UnstableLog) (i t : Nat) :
    (u.entries = [] → u.stableTo i t = u) ∧
    (i < u.offset → u.stableTo i t = u) ∧
    (u.offset + u.entries.length ≤ i → u.stableTo i t = u) :=
  ⟨stableTo_of_empty u i t, stableTo_of_lt u i t, stableTo_of_ge u i t⟩

theorem stableTo_noop_cases_witness :
    bufEmpty.stableTo 5 1 = bufEmpty ∧
    buf51.stableTo 4 1 = buf51 ∧
    buf51.stableTo 6 1 = buf51 :=
  ⟨(stableTo_noop_cases bufEmpty 5 1).1 rfl,
   (stableTo_noop_cases buf51 4 1).2.1 (by decide),
   (stableTo_noop_cases buf51 6 1).2.2 (by decide)⟩

/-- C7: `markStable` (`stableTo`) is idempotent: applying it twice with
the same `(index, term)` yields the same buffer state (hence the same
offset) as applying it once. -/
theorem stableTo_idempotent (u : UnstableLog) (i t : Nat) :
    (u.stableTo i t).stableTo i t = u.stableTo i t := by
  rcases stableTo_eq_self_or_offset u i t with h | h
  · rw [h]
    exact h
  · exact stableTo_of_lt (u.stableTo i t) i t (by omega)

/-- C2: for every buffer state and every non-empty contiguous batch
`e :: rest` with `first = e.index`, `append` (`truncateAndAppend`) behaves
by exactly one of three cases: pure continuation when
`first = offset + len(entries)` (entries appended at the tail, offset
unchanged); full replacement when `first ≤ offset` (buffer becomes the
batch with `offset = first`); partial overlap when
`offset < first < offset + len(entries)` (prefix
`entries[0 .. first-offset)` retained, suffix discarded, batch appended,
offset unchanged). -/
theorem truncateAndAppend_cases (u : UnstableLog) (e : Entry)
    (rest : List Entry) (hcontig : selfContiguousB (e :: rest) = true) :
    (e.index = u.offset + u.entries.length →
      u.truncateAndAppend (e :: rest)
        = { u with entries := u.entries ++ e :: rest }) ∧
    (e.index ≤ u.offset →
      u.truncateAndAppend (e :: rest)
        = { u with entries := e :: rest, offset := e.index }) ∧
    (u.offset < e.index → e.index < u.offset + u.entries.length →
      u.truncateAndAppend (e :: rest)
        = { u with entries :=
              u.entries.take (e.index - u.offset) ++ e :: rest }) := by
  refine ⟨?_, ?_, ?_⟩
  · intro h
    simp only [UnstableLog.truncateAndAppend]
    rw [if_pos h]
  · intro h
    simp only [UnstableLog.truncateAndAppend]
    split_ifs with h1
    · have hlen : u.entries = [] := List.length_eq_zero.mp (by omega)
      have hoff : e.index = u.offset := by omega
      rw [hlen, hoff]
      rfl
    · rfl
  · intro h1 h2
    simp only [UnstableLog.truncateAndAppend]
    rw [if_neg (by omega), if_neg (by omega)]

theorem truncateAndAppend_cases_witness :
    buf3.truncateAndAppend (ent 7 2 :: [ent 8 2])
      = { buf3 with entries :=
            buf3.entries.take ((ent 7 2).index - buf3.offset)
              ++ ent 7 2 :: [ent 8 2] } :=
  (truncateAndAppend_cases buf3 (ent 7 2) [ent 8 2] (by decide)).2.2
    (by decide) (by decide)

/-- C4: `termAt(index)` (`maybeTerm`) resolves in priority order: a set
`pendingSnapshot` whose index equals `index` answers with the snapshot's
term and found = true; otherwise an in-range index answers with
`entries[index-offset].term` and found = true; otherwise it reports
not-found. -/
theorem maybeTerm_resolution (u : UnstableLog) (i : Nat) :
    (∀ s, u.pendingSnapshot = some s → i = s.index →
        u.maybeTerm i = (s.term, true)) ∧
    ((∀ s, u.pendingSnapshot = some s → i ≠ s.index) → u.offset ≤ i →
        ∀ e, u.entries.get? (i - u.offset) = some e →
        u.maybeTerm i = (e.term, true)) ∧
    ((∀ s, u.pendingSnapshot = some s → i ≠ s.index) →
        (i < u.offset ∨ u.offset + u.entries.length ≤ i) →
        u.maybeTerm i = (0, false)) := by
  refine ⟨?_, ?_, ?_⟩
  · intro s hs hi
    simp only [UnstableLog.maybeTerm, hs]
    rw [if_pos hi]
  · intro hns hlo e hget
    cases hps : u.pendingSnapshot with
    | none =>
        simp only [UnstableLog.maybeTerm, hps]
        exact termFromEntries_in_range u i e hlo hget
    | some s =>
        simp only [UnstableLog.maybeTerm, hps]
        rw [if_neg (hns s hps)]
        exact termFromEntries_in_range u i e hlo hget
  · intro hns hout
    cases hps : u.pendingSnapshot with
    | none =>
        simp only [UnstableLog.maybeTerm, hps]
        exact termFromEntries_out_of_range u i hout
    | some s =>
        simp only [UnstableLog.maybeTerm, hps]
        rw [if_neg (hns s hps)]
        exact termFromEntries_out_of_range u i hout

theorem maybeTerm_resolution_witness :
    bufSnap.maybeTerm 4 = (((⟨4, 1⟩ : SnapshotMeta)).term, true) ∧
    buf51.maybeTerm 5 = ((ent 5 1).term, true) ∧
    buf51.maybeTerm 6 = (0, false) :=
  ⟨(maybeTerm_resolution bufSnap 4).1 ⟨4, 1⟩ rfl rfl,
   (maybeTerm_resolution buf51 5).2.1
     (fun _s hs => Option.noConfusion hs) (by decide) (ent 5 1)
     (by decide),
   (maybeTerm_resolution buf51 6).2.2
     (fun _s hs => Option.noConfusion hs) (Or.inr (by decide))⟩

/-- C5: `lastIndex()` (`maybeLastIndex`) returns the index of the last
element of `entries` with found = true when `entries` is non-empty; on an
empty `entries` it returns `pendingSnapshot.index` with found = true when
a snapshot is pending, and reports not-found otherwise. -/
theorem maybeLastIndex_resolution (u : UnstableLog) :
    (∀ e, u.entries.getLast? = some e →
        u.maybeLastIndex = (e.index, true)) ∧
    (u.entries = [] → ∀ s, u.pendingSnapshot = some s →
        u.maybeLastIndex = (s.index, true)) ∧
    (u.entries = [] → u.pendingSnapshot = none →
        u.maybeLastIndex = (0, false)) := by
  refine ⟨?_, ?_, ?_⟩
  · intro e he
    simp [UnstableLog.maybeLastIndex, he]
  · intro h s hs
    simp [UnstableLog.maybeLastIndex, h, hs]
  · intro h hs
    simp [UnstableLog.maybeLastIndex, h, hs]

theorem maybeLastIndex_resolution_witness :
    buf51.maybeLastIndex = ((ent 5 1).index, true) ∧
    bufSnapOnly.maybeLastIndex = (((⟨4, 1⟩ : SnapshotMeta)).index, true) ∧
    bufEmpty.maybeLastIndex = (0, false) :=
  ⟨(maybeLastIndex_resolution buf51).1 (ent 5 1) (by decide),
   (maybeLastIndex_resolution bufSnapOnly).2.1 rfl ⟨4, 1⟩ rfl,
   (maybeLastIndex_resolution bufEmpty).2.2 rfl rfl⟩

/-- C10: whenever a buffer query reports not-found, the accompanying
numeric result is the zero value: `maybeTerm` returns term 0 with
found = false whenever it reports not-found, and `maybeLastIndex` returns
index 0 with found = false on an empty buffer (no entries, no pending
snapshot). -/
theorem notfound_result_zero (u : UnstableLog) (i : Nat) :
    ((u.maybeTerm i).2 = false → (u.maybeTerm i).1 = 0) ∧
    (u.entries = [] → u.pendingSnapshot = none →
        u.maybeLastIndex = (0, false)) := by
  constructor
  · intro h
    cases hps : u.pendingSnapshot with
    | none =>
        simp only [UnstableLog.maybeTerm, hps] at h ⊢
        rcases termFromEntries_cases u i with hc | hc
        · rw [hc] at h
          exact absurd h (by simp)
        · rw [hc]
    | some s =>
        simp only [UnstableLog.maybeTerm, hps] at h ⊢
        by_cases hi : i = s.index
        · rw [if_pos hi] at h
          simp at h
        · rw [if_neg hi] at h ⊢
          rcases termFromEntries_cases u i with hc | hc
          · rw [hc] at h
            exact absurd h (by simp)
          · rw [hc]
  · intro h1 h2
    simp [UnstableLog.maybeLastIndex, h1, h2]

theorem notfound_result_zero_witness :
    (buf51.maybeTerm 9).1 = 0 ∧ bufEmpty.maybeLastIndex = (0, false) :=
  ⟨(notfound_result_zero buf51 9).1 (by decide),
   (notfound_result_zero bufEmpty 0).2 rfl rfl⟩

/-- An input batch that is internally contiguous with strictly increasing
indices but opens a gap after `buf51` (first index 7, while the buffer
ends before index 6). -/
def gapEnts : List Entry := [ent 7 2]

/-- C6 counterexample: strict contiguity is not preserved by
`truncateAndAppend` under the claim's well-formedness reading (input
batch merely contiguous with strictly increasing indices): appending the
internally contiguous batch `[(7,2)]` to the contiguous buffer
`{entries: [(5,1)], offset: 5}` leaves a buffer violating
`entries[p].index == offset + p` (a gap at position 1). -/
theorem contiguity_gap_counterexample :
    buf51.contiguousB = true ∧ selfContiguousB gapEnts = true ∧
    (buf51.truncateAndAppend gapEnts).contiguousB = false := by decide

/-- C6 (amended): starting from a buffer satisfying the strict-contiguity
invariant `entries[p].index == offset + p`, each operation preserves the
invariant, provided additionally — for `truncateAndAppend` — that the
input batch is contiguous with strictly increasing indices and does not
open a gap (its first index is at most `offset + len(entries)`, the
contract of spec §9). -/
theorem contiguity_preserved (u : UnstableLog)
    (hu : u.contiguousB = true) :
    (∀ ents, selfContiguousB ents = true → fitsB u ents = true →
        (u.truncateAndAppend ents).contiguousB = true) ∧
    (∀ i t, (u.stableTo i t).contiguousB = true) ∧
    (∀ b, (u.restoreSnapshot b).contiguousB = true) := by
  refine ⟨?_, ?_, ?_⟩
  · intro ents hsc hfit
    cases ents with
    | nil => exact hu
    | cons e rest =>
        simp only [selfContiguousB] at hsc
        simp only [fitsB, decide_eq_true_eq] at hfit
        simp only [UnstableLog.truncateAndAppend]
        by_cases h1 : e.index = u.offset + u.entries.length
        · rw [if_pos h1]
          show contiguousFromB u.offset (u.entries ++ e :: rest) = true
          rw [contiguousFromB_append, Bool.and_eq_true]
          refine ⟨hu, ?_⟩
          rw [← h1]
          exact hsc
        · rw [if_neg h1]
          by_cases h2 : e.index ≤ u.offset
          · rw [if_pos h2]
            exact hsc
          · rw [if_neg h2]
            show contiguousFromB u.offset
              (u.entries.take (e.index - u.offset) ++ e :: rest) = true
            rw [contiguousFromB_append, Bool.and_eq_true]
            refine ⟨contiguousFromB_take u.entries u.offset _ hu, ?_⟩
            have hlen : (u.entries.take (e.index - u.offset)).length
                = e.index - u.offset := by
              rw [List.length_take]
              omega
            rw [hlen]
            have hoff : u.offset + (e.index - u.offset) = e.index := by
              omega
            rw [hoff]
            exact hsc
  · intro i t
    by_cases hlt : i < u.offset
    · rw [stableTo_of_lt u i t hlt]
      exact hu
    by_cases hge : u.offset + u.entries.length ≤ i
    · rw [stableTo_of_ge u i t hge]
      exact hu
    by_cases hm : (u.entries.get? (i - u.offset)).map Entry.term = some t
    · rw [stableTo_truncates u i t (by omega) (by omega) hm]
      show contiguousFromB (i + 1)
        (u.entries.filter fun e => decide (i < e.index)) = true
      rw [filter_gt_eq_drop u.entries u.offset i hu]
      have h2 := contiguousFromB_drop u.entries u.offset (i + 1 - u.offset)
        hu
      have h3 : u.offset + (i + 1 - u.offset) = i + 1 := by omega
      rw [h3] at h2
      exact h2
    · rw [stableTo_of_mismatch u i t hm]
      exact hu
  · intro b
    show contiguousFromB (b.index + 1) [] = true
    rfl

/-- A batch that continues `buf51` with no gap. -/
def contEnts : List Entry := [ent 6 1]

theorem contiguity_preserved_witness :
    (buf51.truncateAndAppend contEnts).contiguousB = true ∧
    (buf51.stableTo 5 1).contiguousB = true ∧
    (buf51.restoreSnapshot ⟨9, 2⟩).contiguousB = true :=
  ⟨(contiguity_preserved buf51 (by decide)).1 contEnts (by decide)
     (by decide),
   (contiguity_preserved buf51 (by decide)).2.1 5 1,
   (contiguity_preserved buf51 (by decide)).2.2 ⟨9, 2⟩⟩

/-- C8: round trip: appending a non-empty contiguous run starting at the
buffer's next expected index `offset + len(entries)` and then marking the
whole run stable (`stableTo` at the run's last index with that entry's
term) leaves the buffer with zero entries and `offset` one past the last
appended index. -/
theorem append_run_then_stableTo_roundtrip (u : UnstableLog)
    (e lastE : Entry) (rest : List Entry)
    (hu : u.contiguousB = true)
    (hrun : selfContiguousB (e :: rest) = true)
    (hstart : e.index = u.offset + u.entries.length)
    (hlast : (e :: rest).getLast? = some lastE) :
    ((u.truncateAndAppend (e :: rest)).stableTo lastE.index
        lastE.term).entries = [] ∧
    ((u.truncateAndAppend (e :: rest)).stableTo lastE.index
        lastE.term).offset = lastE.index + 1 := by
  have happ : u.truncateAndAppend (e :: rest)
      = { u with entries := u.entries ++ e :: rest } := by
    simp only [UnstableLog.truncateAndAppend]
    rw [if_pos hstart]
  rw [happ]
  apply stableTo_last_clears
  · show contiguousFromB u.offset (u.entries ++ e :: rest) = true
    rw [contiguousFromB_append, Bool.and_eq_true]
    refine ⟨hu, ?_⟩
    rw [← hstart]
    simpa [selfContiguousB] using hrun
  · show (u.entries ++ e :: rest).getLast? = some lastE
    rw [List.getLast?_append_of_ne_nil u.entries (List.cons_ne_nil e rest)]
    exact hlast

theorem append_run_then_stableTo_roundtrip_witness :
    ((buf51.truncateAndAppend (ent 6 1 :: [ent 7 1])).stableTo
        (ent 7 1).index (ent 7 1).term).entries = [] ∧
    ((buf51.truncateAndAppend (ent 6 1 :: [ent 7 1])).stableTo
        (ent 7 1).index (ent 7 1).term).offset = (ent 7 1).index + 1 :=
  append_run_then_stableTo_roundtrip buf51 (ent 6 1) (ent 7 1) [ent 7 1]
    (by decide) (by decide) (by decide) (by decide)

end RaftUnstable
